import Mathlib

/-!
Verification development for the `dogma` policy-verification core
(`src/dogma/verify.py`).

The development shallowly embeds the column-level information-flow analysis
of `Verify` and the `Column` descriptor class.  Workflow-DAG nodes are
supplied by an external collaborator (the `conclave` package) and are only
read through a fixed set of fields (`out_rel`, `children`, `agg_col`,
`group_cols`, `left_parent.out_rel`, `right_parent.out_rel`,
`right_join_cols`); they are embedded as an inductive tree carrying exactly
those fields.  Join nodes store the two parents' output relations by value:
the analysis reads nothing else of a parent through the parent reference,
and no operation mutates an output relation, so this is observationally
equivalent to the Python object graph.
-/

namespace Dogma

/-- A schema column: a stable name plus a position field (`conclave` column
objects as read by `verify.py`: only `.name` and `.idx` are accessed). -/
structure Col where
  name : String
  idx : Nat
deriving Repr, DecidableEq

/-- An output relation: a name plus an ordered list of columns. -/
structure Rel where
  name : String
  columns : List Col
deriving Repr, DecidableEq

/-- Operator kind of a workflow node, with the variant-specific fields that
`verify.py` reads.  `join` stores the parents' output relations by value
(see the module comment). -/
inductive NodeKind where
  | aggregate (agg_col : Col) (group_cols : List Col)
  | concat
  | project
  | join (left_rel : Rel) (right_rel : Rel) (left_join_cols : List Col)
      (right_join_cols : List Col)
  | other
deriving Repr, DecidableEq

/-- A workflow-DAG node: output relation, operator kind, children.  Each
per-column traversal runs on a deep copy of the root (verify.py line 218),
so the structure seen by one traversal is a tree. -/
inductive Node where
  | mk (out_rel : Rel) (kind : NodeKind) (children : List Node)
deriving Repr

def Node.out_rel : Node → Rel
  | .mk r _ _ => r

def Node.kind : Node → NodeKind
  | .mk _ k _ => k

def Node.children : Node → List Node
  | .mk _ _ c => c

/-- The `Column` descriptor class (verify.py lines 238-256).  `__init__`
sets `verified = False` and `current_rel_name = None`. -/
structure Column where
  reveal : Bool
  name : String
  idx : Nat
  verified : Bool
  current_rel_name : Option String
deriving Repr, DecidableEq

/-- `Column.verify` (verify.py lines 248-251). -/
def Column.verify (c : Column) : Column :=
  { c with verified := true }

/-- `Column.update_rel_name` (verify.py lines 253-256), taking the node's
output relation name directly. -/
def Column.update_rel_name (c : Column) (rel_name : String) : Column :=
  { c with current_rel_name := some rel_name }

/-- Python exceptions that `verify.py` can raise, by raise site. -/
inductive VError where
  /-- `_find_root`, line 48: "Node ... not found in DAG". -/
  | nodeNotFound (name : String)
  /-- `policy["columns"][name]` lookup failure in `_verify`, line 216. -/
  | keyError (name : String)
  /-- list index out of range (`columns[-1]` on an empty list, line 57;
  `columns[column.idx]`, line 81; `columns[i]`, line 117). -/
  | indexError
  /-- line 135: `right_join_cols[i].name` where `right_join_cols` holds
  strings (built on line 130), so the attribute access raises. -/
  | attributeError
  /-- `_rewrite_column_for_right` falls off its `elif` branch returning
  `None` (lines 142-146); `_handle_join` then passes `None` to
  `_continue_traversal`, which dereferences it on line 176. -/
  | noneTypeError
  /-- line 121: "Column from left wasn't present in Join output relation". -/
  | leftColumnNotFound
  /-- line 149: "Column from right wasn't present in Join output relation". -/
  | rightColumnNotFound
  /-- line 166: "Current node not present in parent relations". -/
  | parentNotFound
  /-- line 183: `NotImplementedError` for nodes with two or more children
  (the spec's `UnsupportedBranchingWorkflow`). -/
  | notImplementedError
deriving Repr, DecidableEq

/-- Outcome of processing one node: either the handler returned a final
descriptor without calling `_continue_traversal` (`done`), or it handed a
(possibly rewritten) descriptor to `_continue_traversal` (`cont`). -/
inductive Step where
  | done (c : Column)
  | cont (c : Column)
deriving Repr, DecidableEq

/-- The loop of `_rewrite_column_for_left` (verify.py lines 116-121):
`for i in range(num_cols_in_left)` over `node.out_rel.columns[i]`.  `i` is
the current index and `k` the remaining iteration count; indexing past the
end of `out_cols` raises `IndexError` exactly as in Python. -/
def rewrite_left_loop (column : Column) (out_cols : List Col) (i : Nat) :
    Nat → Except VError Column
  | 0 => .error .leftColumnNotFound
  | k + 1 =>
    match out_cols[i]? with
    | none => .error .indexError
    | some c =>
      if column.name = c.name then .ok { column with idx := c.idx }
      else rewrite_left_loop column out_cols (i + 1) k

/-- `Verify._rewrite_column_for_left` (verify.py lines 107-121), with the
left parent's output columns and the join's output columns passed in place
of the node. -/
def rewrite_column_for_left (column : Column) (left_cols : List Col)
    (out_cols : List Col) : Except VError Column :=
  rewrite_left_loop column out_cols 0 left_cols.length

/-- Index of the first column with the given name, relative to the start of
the list. -/
def find_name_idx (name : String) : List Col → Option Nat
  | [] => none
  | c :: rest =>
    if c.name = name then some 0 else (find_name_idx name rest).map (· + 1)

/-- First index `i` with `lo ≤ i` and `out_cols[i].name = name`; embeds the
loop `for i in range(lo, len(out_cols))` of verify.py lines 143-146. -/
def find_name_from (out_cols : List Col) (name : String) (lo : Nat) :
    Option Nat :=
  (find_name_idx name (out_cols.drop lo)).map (lo + ·)

/-- `Verify._rewrite_column_for_right` (verify.py lines 123-149).  In the
join-key branch the Python loop's first iteration evaluates
`right_join_cols[i].name` on a string (line 135) and raises
`AttributeError`; the membership test guarantees the list is nonempty, so
this branch always raises.  In the non-join branch, if no output column in
`range(len(right_join_cols), len(out_cols))` matches, the Python function
falls through and returns `None`, which the caller then dereferences. -/
def rewrite_column_for_right (column : Column) (right_cols : List Col)
    (right_join_cols : List Col) (out_cols : List Col) :
    Except VError Column :=
  let rjc := right_join_cols.map Col.name
  let rnjc := (right_cols.filter (fun c => !(rjc.contains c.name))).map Col.name
  if rjc.contains column.name then
    .error .attributeError
  else if rnjc.contains column.name then
    match find_name_from out_cols column.name rjc.length with
    | some i => .ok { column with idx := i }
    | none => .error .noneTypeError
  else
    .error .rightColumnNotFound

/-- `Verify._handle_aggregate` (verify.py lines 50-71); `out_cols` is the
node's output columns.  The returned `Step` records whether the handler
called `_continue_traversal` (`cont`) or returned directly (`done`). -/
def handle_aggregate (column : Column) (agg_col : Col)
    (group_cols : List Col) (out_cols : List Col) : Except VError Step :=
  if agg_col.name = column.name then
    match out_cols.getLast? with
    | some new_col =>
      .ok (.done ({ column with name := new_col.name, idx := new_col.idx }).verify)
    | none => .error .indexError
  else if (group_cols.map Col.name).contains column.name then
    .ok (.cont { column with
      idx := group_cols.foldl
        (fun acc n => if n.name = column.name then n.idx else acc) column.idx })
  else
    .ok (.done column.verify)

/-- `Verify._handle_concat` (verify.py lines 73-84). -/
def handle_concat (column : Column) (out_cols : List Col) :
    Except VError Step :=
  match out_cols[column.idx]? with
  | some c => .ok (.cont { column with name := c.name })
  | none => .error .indexError

/-- `Verify._handle_project` (verify.py lines 86-105): first matching
output column by name updates the position; absence still continues
traversal without verifying. -/
def handle_project (column : Column) (out_cols : List Col) :
    Except VError Step :=
  match out_cols.find? (fun c => c.name = column.name) with
  | some c => .ok (.cont { column with idx := c.idx })
  | none => .ok (.cont column)

/-- `Verify._handle_join` (verify.py lines 151-168). -/
def handle_join (column : Column) (left_rel right_rel : Rel)
    (right_join_cols : List Col) (out_cols : List Col) :
    Except VError Step :=
  if column.current_rel_name = some left_rel.name then
    (rewrite_column_for_left column left_rel.columns out_cols).map Step.cont
  else if column.current_rel_name = some right_rel.name then
    (rewrite_column_for_right column right_rel.columns right_join_cols
      out_cols).map Step.cont
  else
    .error .parentNotFound

/-- The non-recursive part of `Verify._verify_column` (verify.py lines
185-206): the reveal early exit, then dispatch on node kind. -/
def verify_column_step (column : Column) (out_rel : Rel) (kind : NodeKind) :
    Except VError Step :=
  if column.reveal then .ok (.done column.verify)
  else
    match kind with
    | .aggregate agg_col group_cols =>
      handle_aggregate column agg_col group_cols out_rel.columns
    | .concat => handle_concat column out_rel.columns
    | .project => handle_project column out_rel.columns
    | .join left_rel right_rel _ right_join_cols =>
      handle_join column left_rel right_rel right_join_cols out_rel.columns
    | .other => .ok (.cont column)

mutual

/-- `Verify._verify_column` (verify.py lines 185-206): process the node,
then either stop with the handler's result or continue traversal. -/
def verify_column (column : Column) (node : Node) : Except VError Column :=
  match node with
  | .mk rel kind children =>
    match verify_column_step column rel kind with
    | .error e => .error e
    | .ok (.done c) => .ok c
    | .ok (.cont c) => continue_children (c.update_rel_name rel.name) children

/-- The child dispatch of `Verify._continue_traversal` (verify.py lines
176-183), after `update_rel_name`: exactly one child continues there
(`children.pop()` on a one-element set yields that element), zero children
ends the traversal, two or more raise `NotImplementedError`. -/
def continue_children (column : Column) (children : List Node) :
    Except VError Column :=
  match children with
  | [child] => verify_column column child
  | [] => .ok column
  | _ => .error .notImplementedError

end

/-- A party's policy for one relation: the `"fileName"` entry and the
`"columns"` mapping from column name to its `{"read": bool}` flag. -/
structure Policy where
  fileName : String
  columns : List (String × Bool)
deriving Repr, DecidableEq

/-- Dictionary lookup `policy["columns"][n]["read"]`; `none` models the
`KeyError` case. -/
def Policy.readFlag (p : Policy) (n : String) : Option Bool :=
  (p.columns.find? (fun e => e.1 = n)).map (fun e => e.2)

/-- `Verify._find_root` (verify.py lines 36-48). -/
def find_root (roots : List Node) (p : Policy) : Except VError Node :=
  match roots.find? (fun rn => rn.out_rel.name = p.fileName) with
  | some rn => .ok rn
  | none => .error (.nodeNotFound p.fileName)

/-- The descriptor-seeding comprehension of `Verify._verify` (verify.py
lines 215-216) over the root's output columns: `Column(...)` sets
`verified = False` and `current_rel_name = None`; a missing policy entry
raises `KeyError`. -/
def seed_columns (p : Policy) (root_cols : List Col) :
    Except VError (List Column) :=
  root_cols.mapM (fun n =>
    match p.readFlag n.name with
    | some b =>
      .ok { reveal := b, name := n.name, idx := n.idx, verified := false,
            current_rel_name := none }
    | none => .error (.keyError n.name))

/-- `Verify._verify` (verify.py lines 208-221), with the propagation of
each stage's exception written as an explicit match.  `copy.deepcopy(root)`
is the identity on the tree value; the heap model below accounts for the
mutation-related reasons the copy exists. -/
def verify_policy (roots : List Node) (p : Policy) : Except VError Bool :=
  match find_root roots p with
  | .error e => .error e
  | .ok root =>
    match seed_columns p root.out_rel.columns with
    | .error e => .error e
    | .ok cols =>
      match cols.mapM (fun column => verify_column column root) with
      | .error e => .error e
      | .ok v => .ok (v.all Column.verified)

/-!
Heap model.  The Python traversal advances by `node.children.pop()`
(verify.py line 179), which mutates the node it runs on; `_verify` guards
the caller's DAG by handing each per-column traversal `copy.deepcopy(root)`
(line 218).  To state that the caller's DAG is never mutated, nodes are
placed in an explicit heap (a list indexed by `NodeId`) and every heap
update is threaded explicitly; `deepcopy` allocates only fresh indices at
the end of the heap.
-/

/-- Index of a node in the heap. -/
abbrev NodeId := Nat

/-- A heap-resident workflow node: same data as `Node`, with children held
as heap references. -/
structure HNode where
  out_rel : Rel
  kind : NodeKind
  children : List NodeId
deriving Repr, DecidableEq

/-- `copy.deepcopy` for a list of node references: fresh nodes are appended
to the heap (children first, so every new node's children point at earlier
fresh indices) and nothing already in the heap is written.  Fuel bounds the
recursion depth; `none` means the fuel ran out. -/
def deepcopyList (fuel : Nat) (heap : List HNode) (ids : List NodeId) :
    Option (List HNode × List NodeId) :=
  match fuel with
  | 0 => none
  | fuel' + 1 =>
    match ids with
    | [] => some (heap, [])
    | id :: rest =>
      match heap[id]? with
      | none => none
      | some nd =>
        match deepcopyList fuel' heap nd.children with
        | none => none
        | some (heap1, kids) =>
          match deepcopyList fuel' (heap1 ++ [{ nd with children := kids }]) rest with
          | none => none
          | some (heap3, nids) => some (heap3, heap1.length :: nids)

/-- `copy.deepcopy(root)` (verify.py line 218): copy the subgraph of one
node into fresh heap cells and return the fresh root's id. -/
def deepcopy1 (fuel : Nat) (heap : List HNode) (id : NodeId) :
    Option (List HNode × NodeId) :=
  match deepcopyList fuel heap [id] with
  | some (heap1, nid :: _) => some (heap1, nid)
  | _ => none

/-- `Verify._verify_column` over the heap: identical dispatch to
`verify_column`, but `_continue_traversal`'s `node.children.pop()` is the
explicit destructive update `heap.set id { nd with children := [] }`.
Fuel bounds the recursion depth; `none` means the fuel ran out. -/
def verify_column_heap (fuel : Nat) (column : Column) (heap : List HNode)
    (id : NodeId) : Option (Except VError Column × List HNode) :=
  match fuel with
  | 0 => none
  | fuel' + 1 =>
    match heap[id]? with
    | none => some (.error .indexError, heap)
    | some nd =>
      match verify_column_step column nd.out_rel nd.kind with
      | .error e => some (.error e, heap)
      | .ok (.done c) => some (.ok c, heap)
      | .ok (.cont c) =>
        match nd.children with
        | [child] =>
          verify_column_heap fuel' (c.update_rel_name nd.out_rel.name)
            (heap.set id { nd with children := [] }) child
        | [] => some (.ok (c.update_rel_name nd.out_rel.name), heap)
        | _ => some (.error .notImplementedError, heap)

/-- `Verify._find_root` over the heap. -/
def find_root_heap (heap : List HNode) (roots : List NodeId) (p : Policy) :
    Except VError NodeId :=
  match roots.find? (fun id =>
      match heap[id]? with
      | some nd => nd.out_rel.name = p.fileName
      | none => false) with
  | some id => .ok id
  | none => .error (.nodeNotFound p.fileName)

/-- The per-column loop of `Verify._verify` (verify.py line 218): each
descriptor gets its own deep copy of the resolved root and is traversed on
it; the heap is threaded through in program order. -/
def run_columns_heap (fuel : Nat) (heap : List HNode) (root_id : NodeId) :
    List Column → Option (Except VError (List Column) × List HNode)
  | [] => some (.ok [], heap)
  | column :: rest =>
    match deepcopy1 fuel heap root_id with
    | none => none
    | some (heap1, copy_id) =>
      match verify_column_heap fuel column heap1 copy_id with
      | none => none
      | some (.error e, heap2) => some (.error e, heap2)
      | some (.ok c, heap2) =>
        match run_columns_heap fuel heap2 root_id rest with
        | none => none
        | some (.error e, heap3) => some (.error e, heap3)
        | some (.ok v, heap3) => some (.ok (c :: v), heap3)

/-- `Verify._verify` over the heap (verify.py lines 208-221). -/
def verify_policy_heap (fuel : Nat) (heap : List HNode) (roots : List NodeId)
    (p : Policy) : Option (Except VError Bool × List HNode) :=
  match find_root_heap heap roots p with
  | .error e => some (.error e, heap)
  | .ok root_id =>
    match heap[root_id]? with
    | none => some (.error .indexError, heap)
    | some root =>
      match seed_columns p root.out_rel.columns with
      | .error e => some (.error e, heap)
      | .ok cols =>
        match run_columns_heap fuel heap root_id cols with
        | none => none
        | some (.error e, heap2) => some (.error e, heap2)
        | some (.ok v, heap2) => some (.ok (v.all Column.verified), heap2)

/-- Every node at an index at or above `n` points only at children at or
above `n` (the freshly copied region is closed under child references). -/
def regionClosed (n : Nat) (heap : List HNode) : Prop :=
  ∀ j nd, heap[j]? = some nd → n ≤ j → ∀ c ∈ nd.children, n ≤ c

/-!
Theorems.
-/

/-- The group-column loop of `_handle_aggregate` leaves the accumulator
unchanged when no group column matches. -/
theorem foldl_pick_no_match (name : String) :
    ∀ (l : List Col) (init : Nat), (∀ n ∈ l, n.name ≠ name) →
      l.foldl (fun acc n => if n.name = name then n.idx else acc) init
        = init := by
  intro l
  induction l with
  | nil => intro init _; rfl
  | cons c rest ih =>
    intro init hf
    have hc : c.name ≠ name := hf c (by simp)
    simp only [List.foldl_cons, if_neg hc]
    exact ih init (fun n hn => hf n (by simp [hn]))

/-- The group-column loop of `_handle_aggregate` returns the position of
the unique matching group column. -/
theorem foldl_pick_unique (name : String) :
    ∀ (l : List Col) (init : Nat) (g : Col),
      l.filter (fun n => n.name = name) = [g] →
      l.foldl (fun acc n => if n.name = name then n.idx else acc) init
        = g.idx := by
  intro l
  induction l with
  | nil => intro init g hf; simp at hf
  | cons c rest ih =>
    intro init g hf
    rw [List.filter_cons] at hf
    by_cases hc : c.name = name
    · rw [if_pos (by simp [hc])] at hf
      have hcg : c = g := (List.cons_eq_cons.mp hf).1
      have hrest := (List.cons_eq_cons.mp hf).2
      have hnom : ∀ n ∈ rest, n.name ≠ name := by
        intro n hn heq
        have hmem : n ∈ rest.filter (fun n => decide (n.name = name)) :=
          List.mem_filter.mpr ⟨hn, by simp [heq]⟩
        rw [hrest] at hmem
        simp at hmem
      rw [List.foldl_cons, if_pos hc, hcg]
      exact foldl_pick_no_match name rest g.idx hnom
    · rw [if_neg (by simp [hc])] at hf
      rw [List.foldl_cons, if_neg hc]
      exact ih init g hf

/-- C6: when an
unrevealed descriptor crosses an Aggregate node, (1) a descriptor named
like `agg_col` is renamed to the last output column (the synthesized
aggregate column) and returned verified without continuing, regardless of
the node's children; (2) a descriptor matching the unique group column of
its name adopts that group column's position and continues to the child
without being marked verified; (3) a descriptor matching neither is
returned verified (safe-by-absence), regardless of the node's children. -/
theorem aggregate_cases (column : Column) (rel : Rel) (agg_col : Col)
    (group_cols : List Col) (h : column.reveal = false) :
    (∀ children new_col, agg_col.name = column.name →
      rel.columns.getLast? = some new_col →
      verify_column column (.mk rel (.aggregate agg_col group_cols) children) =
        .ok { column with
          name := new_col.name, idx := new_col.idx, verified := true }) ∧
    (∀ child g, agg_col.name ≠ column.name →
      group_cols.filter (fun n => n.name = column.name) = [g] →
      verify_column column (.mk rel (.aggregate agg_col group_cols) [child]) =
        verify_column { column with
          idx := g.idx, current_rel_name := some rel.name } child ∧
      ({ column with
        idx := g.idx, current_rel_name := some rel.name } : Column).verified
        = column.verified) ∧
    (∀ children, agg_col.name ≠ column.name →
      column.name ∉ group_cols.map Col.name →
      verify_column column (.mk rel (.aggregate agg_col group_cols) children) =
        .ok { column with verified := true }) := by
  refine ⟨?_, ?_, ?_⟩
  · intro children new_col hag hlast
    simp [verify_column, verify_column_step, h, handle_aggregate, hag, hlast,
      Column.verify]
  · intro child g hag hf
    have hg : g ∈ group_cols ∧ g.name = column.name := by
      have : g ∈ group_cols.filter (fun n => decide (n.name = column.name)) := by
        rw [hf]; simp
      have := List.mem_filter.mp this
      exact ⟨this.1, by simpa using this.2⟩
    have hmem : column.name ∈ group_cols.map Col.name :=
      List.mem_map.mpr ⟨g, hg.1, hg.2⟩
    have hfold := foldl_pick_unique column.name group_cols column.idx g hf
    refine ⟨?_, rfl⟩
    simp [verify_column, verify_column_step, h, handle_aggregate, hag, hmem,
      hfold, continue_children, Column.update_rel_name]
  · intro children hag hno
    simp [verify_column, verify_column_step, h, handle_aggregate, hag, hno,
      Column.verify]

/-- Witness for `aggregate_cases`: the Aggregate node of the example
workflow (group column `d`, aggregate target `e`, output `d, meanCol`). -/
theorem aggregate_cases_witness :
    (verify_column ⟨false, "e", 1, false, some "cc1"⟩
        (.mk ⟨"agg1", [⟨"d", 0⟩, ⟨"meanCol", 1⟩]⟩
          (.aggregate ⟨"e", 1⟩ [⟨"d", 0⟩]) []) =
      .ok ⟨false, "meanCol", 1, true, some "cc1"⟩) ∧
    (verify_column ⟨false, "d", 0, false, some "cc1"⟩
        (.mk ⟨"agg1", [⟨"d", 0⟩, ⟨"meanCol", 1⟩]⟩
          (.aggregate ⟨"e", 1⟩ [⟨"d", 0⟩]) [.mk ⟨"t", []⟩ .other []]) =
      verify_column ⟨false, "d", 0, false, some "agg1"⟩
        (.mk ⟨"t", []⟩ .other [])) ∧
    (verify_column ⟨false, "q", 5, false, some "cc1"⟩
        (.mk ⟨"agg1", [⟨"d", 0⟩, ⟨"meanCol", 1⟩]⟩
          (.aggregate ⟨"e", 1⟩ [⟨"d", 0⟩]) []) =
      .ok ⟨false, "q", 5, true, some "cc1"⟩) := by
  refine ⟨?_, ?_, ?_⟩
  · exact (aggregate_cases ⟨false, "e", 1, false, some "cc1"⟩
      ⟨"agg1", [⟨"d", 0⟩, ⟨"meanCol", 1⟩]⟩ ⟨"e", 1⟩ [⟨"d", 0⟩] rfl).1
      [] ⟨"meanCol", 1⟩ rfl rfl
  · exact ((aggregate_cases ⟨false, "d", 0, false, some "cc1"⟩
      ⟨"agg1", [⟨"d", 0⟩, ⟨"meanCol", 1⟩]⟩ ⟨"e", 1⟩ [⟨"d", 0⟩] rfl).2.1
      (.mk ⟨"t", []⟩ .other []) ⟨"d", 0⟩ (by decide) (by simp)).1
  · exact (aggregate_cases ⟨false, "q", 5, false, some "cc1"⟩
      ⟨"agg1", [⟨"d", 0⟩, ⟨"meanCol", 1⟩]⟩ ⟨"e", 1⟩ [⟨"d", 0⟩] rfl).2.2
      [] (by decide) (by decide)

/-- C2: for every column descriptor with `reveal = true`, the traversal
driver `_verify_column` returns the descriptor with `verified = true`
immediately, at any node of any workflow DAG, independent of the node's
kind and of everything downstream of it. -/
theorem reveal_early_exit (column : Column) (node : Node)
    (h : column.reveal = true) :
    verify_column column node = .ok { column with verified := true } := by
  cases node with
  | mk rel kind children =>
    simp [verify_column, verify_column_step, h, Column.verify]

/-- Witness for `reveal_early_exit`. -/
theorem reveal_early_exit_witness :
    verify_column ⟨true, "b", 1, false, none⟩
      (.mk ⟨"r", []⟩ .other []) = .ok ⟨true, "b", 1, true, none⟩ :=
  reveal_early_exit _ _ rfl

/-- C3: when an unrevealed descriptor crosses a Project node, a matching
output column by name updates the descriptor's position to that column's
`idx` and traversal continues at the child; when no output column bears the
descriptor's name, traversal still continues to the child with the
descriptor unchanged apart from `current_relation`, in particular without
marking it verified. -/
theorem project_step (column : Column) (rel : Rel) (child : Node)
    (h : column.reveal = false) :
    (∀ c, rel.columns.find? (fun cc => cc.name = column.name) = some c →
      verify_column column (.mk rel .project [child]) =
        verify_column { column with
          idx := c.idx, current_rel_name := some rel.name } child) ∧
    (rel.columns.find? (fun cc => cc.name = column.name) = none →
      verify_column column (.mk rel .project [child]) =
        verify_column { column with current_rel_name := some rel.name } child ∧
      ({ column with current_rel_name := some rel.name } : Column).verified
        = column.verified) := by
  constructor
  · intro c hc
    simp [verify_column, verify_column_step, h, handle_project, hc,
      continue_children, Column.update_rel_name]
  · intro hc
    refine ⟨?_, rfl⟩
    simp [verify_column, verify_column_step, h, handle_project, hc,
      continue_children, Column.update_rel_name]

/-- Witness for `project_step`: one Project node with output column
`a` at position 0; a descriptor named `a` adopts position 0, a descriptor
named `c` continues unverified. -/
theorem project_step_witness :
    (verify_column ⟨false, "a", 1, false, none⟩
        (.mk ⟨"p", [⟨"a", 0⟩]⟩ .project [.mk ⟨"t", []⟩ .other []]) =
      verify_column ⟨false, "a", 0, false, some "p"⟩ (.mk ⟨"t", []⟩ .other [])) ∧
    (verify_column ⟨false, "c", 2, false, none⟩
        (.mk ⟨"p", [⟨"a", 0⟩]⟩ .project [.mk ⟨"t", []⟩ .other []]) =
      verify_column ⟨false, "c", 2, false, some "p"⟩ (.mk ⟨"t", []⟩ .other []) ∧
      (⟨false, "c", 2, false, some "p"⟩ : Column).verified = false) :=
  ⟨(project_step ⟨false, "a", 1, false, none⟩ ⟨"p", [⟨"a", 0⟩]⟩
      (.mk ⟨"t", []⟩ .other []) rfl).1 ⟨"a", 0⟩ rfl,
   (project_step ⟨false, "c", 2, false, none⟩ ⟨"p", [⟨"a", 0⟩]⟩
      (.mk ⟨"t", []⟩ .other []) rfl).2 rfl⟩

/-- C7: a descriptor whose node processing continues into
`_continue_traversal` at a node with zero children is returned as is (still
unverified if it was unverified), which makes the enclosing policy
conjunction false; at a node with two or more children the traversal
raises `NotImplementedError` (the spec's `UnsupportedBranchingWorkflow`),
which is distinct from every ordinary `.ok` outcome, so it can never count
as verification success. -/
theorem terminal_and_branching_outcomes (column c : Column) (rel : Rel)
    (kind : NodeKind)
    (h : verify_column_step column rel kind = .ok (.cont c)) :
    (c.verified = false →
      verify_column column (.mk rel kind []) =
        .ok { c with current_rel_name := some rel.name } ∧
      ({ c with current_rel_name := some rel.name } : Column).verified
        = false) ∧
    (∀ n1 n2 rest,
      verify_column column (.mk rel kind (n1 :: n2 :: rest)) =
        .error .notImplementedError ∧
      ∀ d, verify_column column (.mk rel kind (n1 :: n2 :: rest)) ≠ .ok d) ∧
    (∀ (v : List Column) cc, cc ∈ v → cc.verified = false →
      v.all Column.verified = false) := by
  refine ⟨?_, ?_, ?_⟩
  · intro hv
    refine ⟨?_, hv⟩
    simp [verify_column, h, continue_children, Column.update_rel_name]
  · intro n1 n2 rest
    constructor
    · simp [verify_column, h, continue_children]
    · intro d
      simp [verify_column, h, continue_children]
  · intro v cc hm hv
    cases hall : v.all Column.verified with
    | false => rfl
    | true =>
      have := List.all_eq_true.mp hall cc hm
      rw [hv] at this
      exact absurd this (by simp)

/-- Witness for `terminal_and_branching_outcomes`: a pass-through node. -/
theorem terminal_and_branching_outcomes_witness :
    (verify_column ⟨false, "x", 0, false, none⟩ (.mk ⟨"r", []⟩ .other []) =
      .ok ⟨false, "x", 0, false, some "r"⟩ ∧
      (⟨false, "x", 0, false, some "r"⟩ : Column).verified = false) ∧
    (verify_column ⟨false, "x", 0, false, none⟩
        (.mk ⟨"r", []⟩ .other [.mk ⟨"t", []⟩ .other [], .mk ⟨"u", []⟩ .other []]) =
      .error .notImplementedError) ∧
    ([(⟨false, "x", 0, false, some "r"⟩ : Column)].all Column.verified = false) := by
  have h := terminal_and_branching_outcomes ⟨false, "x", 0, false, none⟩
    ⟨false, "x", 0, false, none⟩ ⟨"r", []⟩ .other rfl
  exact ⟨h.1 rfl, (h.2.1 (.mk ⟨"t", []⟩ .other []) (.mk ⟨"u", []⟩ .other []) []).1,
    h.2.2 _ ⟨false, "x", 0, false, some "r"⟩ (by simp) rfl⟩

/-- Unfolding of the seeding comprehension one column at a time. -/
theorem seed_columns_cons (p : Policy) (rc : Col) (rest : List Col) :
    seed_columns p (rc :: rest) =
      match p.readFlag rc.name with
      | some b =>
        match seed_columns p rest with
        | .ok tl => .ok ({ reveal := b, name := rc.name, idx := rc.idx,
                           verified := false,
                           current_rel_name := none } :: tl)
        | .error e => .error e
      | none => .error (.keyError rc.name) := by
  cases hr : p.readFlag rc.name with
  | none =>
    rw [seed_columns, List.mapM_cons, hr]
    rfl
  | some b =>
    cases hrest : seed_columns p rest with
    | ok tl =>
      rw [seed_columns, List.mapM_cons, hr]
      rw [seed_columns] at hrest
      rw [hrest]
      rfl
    | error e =>
      rw [seed_columns, List.mapM_cons, hr]
      rw [seed_columns] at hrest
      rw [hrest]
      rfl

/-- C1: when the policy's relation name resolves to a root, seeding
succeeds and every per-column traversal runs to completion without
raising, `_verify` returns the conjunction of the descriptors' `verified`
flags: it is `True` iff every descriptor ends verified, and `False` as
soon as any descriptor ends unverified. -/
theorem verify_policy_iff_all_verified (roots : List Node) (p : Policy)
    (root : Node) (cols v : List Column)
    (h1 : find_root roots p = .ok root)
    (h2 : seed_columns p root.out_rel.columns = .ok cols)
    (h3 : cols.mapM (fun column => verify_column column root) = .ok v) :
    verify_policy roots p = .ok (v.all Column.verified) ∧
    (verify_policy roots p = .ok true ↔ ∀ c ∈ v, c.verified = true) := by
  have he : verify_policy roots p = .ok (v.all Column.verified) := by
    simp only [verify_policy, h1, h2, h3]
  refine ⟨he, ?_⟩
  rw [he]
  simp [List.all_eq_true]

/-- Witness for `verify_policy_iff_all_verified`: a single-column root
whose descriptor ends unverified, so the policy evaluates to `false`. -/
theorem verify_policy_iff_all_verified_witness :
    verify_policy [.mk ⟨"in1", [⟨"a", 0⟩]⟩ .other []]
        ⟨"in1", [("a", false)]⟩ =
      .ok ([(⟨false, "a", 0, false, some "in1"⟩ : Column)].all Column.verified) ∧
    (verify_policy [.mk ⟨"in1", [⟨"a", 0⟩]⟩ .other []]
        ⟨"in1", [("a", false)]⟩ = .ok true ↔
      ∀ c ∈ [(⟨false, "a", 0, false, some "in1"⟩ : Column)],
        c.verified = true) :=
  verify_policy_iff_all_verified [.mk ⟨"in1", [⟨"a", 0⟩]⟩ .other []]
    ⟨"in1", [("a", false)]⟩ (.mk ⟨"in1", [⟨"a", 0⟩]⟩ .other [])
    [⟨false, "a", 0, false, none⟩] [⟨false, "a", 0, false, some "in1"⟩]
    rfl rfl rfl

/-- Element-wise description of a successful descriptor seeding: one
descriptor per root output column, `reveal` from the policy's entry for
that column's name, name and position copied from the schema, `verified`
false and `current_rel_name` unset (`None`). -/
theorem seed_columns_ok_spec (p : Policy) :
    ∀ (root_cols : List Col) (cols : List Column),
      seed_columns p root_cols = .ok cols →
      cols.length = root_cols.length ∧
      ∀ (i : Nat) (c : Col) (d : Column),
        root_cols[i]? = some c → cols[i]? = some d →
        p.readFlag c.name = some d.reveal ∧
        d = { reveal := d.reveal, name := c.name, idx := c.idx,
              verified := false, current_rel_name := none } := by
  intro root_cols
  induction root_cols with
  | nil =>
    intro cols h
    rw [seed_columns, List.mapM_nil] at h
    have hc : cols = [] := by
      have h2 : (Except.ok ([] : List Column) : Except VError (List Column))
          = .ok cols := h
      simpa using h2.symm
    subst hc
    exact ⟨rfl, by intro i c d hc hd; simp at hc⟩
  | cons rc rest ih =>
    intro cols h
    rw [seed_columns_cons] at h
    cases hr : p.readFlag rc.name with
    | none =>
      simp only [hr] at h
      exact Except.noConfusion h
    | some b =>
      simp only [hr] at h
      cases hrest : seed_columns p rest with
      | error e =>
        simp only [hrest] at h
        exact Except.noConfusion h
      | ok tl =>
        simp only [hrest, Except.ok.injEq] at h
        subst h
        obtain ⟨hlen, hspec⟩ := ih tl hrest
        refine ⟨by simp [hlen], ?_⟩
        intro i c d hc hd
        cases i with
        | zero =>
          simp only [List.getElem?_cons_zero, Option.some.injEq] at hc hd
          subst hc
          subst hd
          exact ⟨hr, rfl⟩
        | succ j =>
          simp only [List.getElem?_cons_succ] at hc hd
          exact hspec j c d hc hd

/-- Counterexample to C9 as stated: for a resolved root named `in1`, the
descriptor created by seeding has `current_rel_name = none`, not the
root's output relation name. -/
theorem seed_current_rel_counterexample :
    find_root [.mk ⟨"in1", [⟨"a", 0⟩]⟩ .other []] ⟨"in1", [("a", false)]⟩ =
      .ok (.mk ⟨"in1", [⟨"a", 0⟩]⟩ .other []) ∧
    seed_columns ⟨"in1", [("a", false)]⟩ [⟨"a", 0⟩] =
      .ok [⟨false, "a", 0, false, none⟩] ∧
    (⟨false, "a", 0, false, none⟩ : Column).current_rel_name ≠ some "in1" :=
  ⟨rfl, rfl, by decide⟩

/-- C9 (amended): for a resolved root, seeding creates exactly one
descriptor per column of the root's output schema, with `reveal` taken
from the policy's `{"read": bool}` entry for that column's name, name and
position copied from the root's schema, `verified` initially false, and
`current_rel_name` initially `None` — it only becomes a relation name once
the descriptor passes through `_continue_traversal`. -/
theorem seeding_spec (roots : List Node) (p : Policy) (root : Node)
    (cols : List Column) (_h1 : find_root roots p = .ok root)
    (h2 : seed_columns p root.out_rel.columns = .ok cols) :
    cols.length = root.out_rel.columns.length ∧
    ∀ (i : Nat) (c : Col) (d : Column),
      root.out_rel.columns[i]? = some c → cols[i]? = some d →
      p.readFlag c.name = some d.reveal ∧
      d = { reveal := d.reveal, name := c.name, idx := c.idx,
            verified := false, current_rel_name := none } :=
  seed_columns_ok_spec p root.out_rel.columns cols h2

/-- Witness for `seeding_spec`. -/
theorem seeding_spec_witness :
    ([(⟨false, "a", 0, false, none⟩ : Column)].length =
      (⟨"in1", [⟨"a", 0⟩]⟩ : Rel).columns.length) ∧
    ∀ (i : Nat) (c : Col) (d : Column),
      (⟨"in1", [⟨"a", 0⟩]⟩ : Rel).columns[i]? = some c →
      [(⟨false, "a", 0, false, none⟩ : Column)][i]? = some d →
      Policy.readFlag ⟨"in1", [("a", false)]⟩ c.name = some d.reveal ∧
      d = { reveal := d.reveal, name := c.name, idx := c.idx,
            verified := false, current_rel_name := none } :=
  seeding_spec [.mk ⟨"in1", [⟨"a", 0⟩]⟩ .other []] ⟨"in1", [("a", false)]⟩
    (.mk ⟨"in1", [⟨"a", 0⟩]⟩ .other []) [⟨false, "a", 0, false, none⟩]
    rfl rfl

/-- Seeding fails with the `KeyError` of the first root column whose name
is missing from the policy's `"columns"` mapping. -/
theorem seed_columns_missing_key (p : Policy) :
    ∀ (root_cols : List Col),
      (∃ c ∈ root_cols, p.readFlag c.name = none) →
      ∃ name, p.readFlag name = none ∧
        seed_columns p root_cols = .error (.keyError name) := by
  intro root_cols
  induction root_cols with
  | nil => intro h; simp at h
  | cons rc rest ih =>
    intro h
    cases hr : p.readFlag rc.name with
    | none =>
      refine ⟨rc.name, hr, ?_⟩
      rw [seed_columns_cons]
      simp only [hr]
    | some b =>
      have hrest : ∃ c ∈ rest, p.readFlag c.name = none := by
        obtain ⟨c, hc, hcn⟩ := h
        rcases List.mem_cons.mp hc with rfl | hcr
        · rw [hr] at hcn; simp at hcn
        · exact ⟨c, hcr, hcn⟩
      obtain ⟨name, hname, hseed⟩ := ih hrest
      refine ⟨name, hname, ?_⟩
      rw [seed_columns_cons]
      simp only [hr, hseed]

/-- C10: if the policy's `"columns"` mapping lacks an entry for some
column name of the resolved root's output schema, `_verify` fails with a
`KeyError` raised by the seeding comprehension (so between root resolution
and the traversals), rather than defaulting the missing `reveal` flag or
skipping the column. -/
theorem verify_policy_missing_policy_entry (roots : List Node) (p : Policy)
    (root : Node) (c : Col) (h1 : find_root roots p = .ok root)
    (hc : c ∈ root.out_rel.columns) (hm : p.readFlag c.name = none) :
    ∃ name, p.readFlag name = none ∧
      verify_policy roots p = .error (.keyError name) := by
  obtain ⟨name, hname, hseed⟩ :=
    seed_columns_missing_key p root.out_rel.columns ⟨c, hc, hm⟩
  exact ⟨name, hname, by simp only [verify_policy, h1, hseed]⟩

/-- Witness for `verify_policy_missing_policy_entry`: the policy has no
entry for root column `b`. -/
theorem verify_policy_missing_policy_entry_witness :
    ∃ name, Policy.readFlag ⟨"in1", [("a", true)]⟩ name = none ∧
      verify_policy [.mk ⟨"in1", [⟨"a", 0⟩, ⟨"b", 1⟩]⟩ .other []]
        ⟨"in1", [("a", true)]⟩ = .error (.keyError name) :=
  verify_policy_missing_policy_entry
    [.mk ⟨"in1", [⟨"a", 0⟩, ⟨"b", 1⟩]⟩ .other []] ⟨"in1", [("a", true)]⟩
    (.mk ⟨"in1", [⟨"a", 0⟩, ⟨"b", 1⟩]⟩ .other []) ⟨"b", 1⟩
    rfl (by decide) rfl

/-- C4: the claim describes the intended rename of a right-parent join-key
column to the corresponding left-side join-key name, which is also what
the comment at verify.py lines 136-137 documents; the code instead indexes
`right_join_cols` — a list of plain strings built on line 130 — and reads
`.name` from a string (line 135), so this branch always raises
`AttributeError` before any rename happens.  The theorem evaluates the
embedded rewrite and a full join-node traversal at the failing input. -/
theorem join_right_key_attribute_error :
    rewrite_column_for_right ⟨false, "y", 0, false, some "R"⟩
        [⟨"y", 0⟩, ⟨"z", 1⟩] [⟨"y", 0⟩] [⟨"x", 0⟩, ⟨"w", 1⟩, ⟨"z", 2⟩] =
      .error .attributeError ∧
    verify_column ⟨false, "y", 0, false, some "R"⟩
        (.mk ⟨"J", [⟨"x", 0⟩, ⟨"w", 1⟩, ⟨"z", 2⟩]⟩
          (.join ⟨"L", [⟨"x", 0⟩, ⟨"w", 1⟩]⟩ ⟨"R", [⟨"y", 0⟩, ⟨"z", 1⟩]⟩
            [⟨"x", 0⟩] [⟨"y", 0⟩]) [.mk ⟨"T", []⟩ .other []]) =
      .error .attributeError :=
  ⟨rfl, rfl⟩

/-- Positions found by `find_name_idx` hold a column of the sought name,
and no earlier position does. -/
theorem find_name_idx_spec (name : String) :
    ∀ (l : List Col) (j : Nat), find_name_idx name l = some j →
      (∃ c, l[j]? = some c ∧ c.name = name) ∧
      ∀ (k : Nat) (c2 : Col), k < j → l[k]? = some c2 → c2.name ≠ name := by
  intro l
  induction l with
  | nil => intro j h; simp [find_name_idx] at h
  | cons c rest ih =>
    intro j h
    rw [find_name_idx] at h
    by_cases hc : c.name = name
    · rw [if_pos hc] at h
      have hj : j = 0 := by injection h with h2; omega
      subst hj
      refine ⟨⟨c, by simp, hc⟩, ?_⟩
      intro k c2 hk
      exact absurd hk (by omega)
    · rw [if_neg hc] at h
      cases hf : find_name_idx name rest with
      | none => rw [hf] at h; simp at h
      | some j2 =>
        rw [hf] at h
        simp only [Option.map_some'] at h
        have hj : j = j2 + 1 := by injection h with h2; omega
        subst hj
        obtain ⟨⟨c3, hc3, hc3n⟩, hmin⟩ := ih j2 hf
        refine ⟨⟨c3, by simpa using hc3, hc3n⟩, ?_⟩
        intro k c2 hk hkc
        cases k with
        | zero =>
          simp only [List.getElem?_cons_zero, Option.some.injEq] at hkc
          subst hkc
          exact hc
        | succ k2 =>
          simp only [List.getElem?_cons_succ] at hkc
          exact hmin k2 c2 (by omega) hkc

/-- The position found by `find_name_from` is the first match at or after
the start offset. -/
theorem find_name_from_spec (out_cols : List Col) (name : String)
    (lo i : Nat) (h : find_name_from out_cols name lo = some i) :
    lo ≤ i ∧ (∃ c, out_cols[i]? = some c ∧ c.name = name) ∧
    ∀ (j : Nat) (c2 : Col), lo ≤ j → j < i → out_cols[j]? = some c2 →
      c2.name ≠ name := by
  rw [find_name_from] at h
  cases hf : find_name_idx name (out_cols.drop lo) with
  | none => rw [hf] at h; simp at h
  | some j2 =>
    rw [hf] at h
    simp only [Option.map_some'] at h
    have hi : i = lo + j2 := by injection h with h2; omega
    subst hi
    obtain ⟨⟨c, hc, hcn⟩, hmin⟩ :=
      find_name_idx_spec name (out_cols.drop lo) j2 hf
    rw [List.getElem?_drop] at hc
    refine ⟨by omega, ⟨c, hc, hcn⟩, ?_⟩
    intro j c2 hj1 hj2 hjc
    refine hmin (j - lo) c2 (by omega) ?_
    rw [List.getElem?_drop, show lo + (j - lo) = j by omega]
    exact hjc

/-- Counterexample to C5 as stated: left parent `L` has columns `k, z`
(two columns), right parent `R` has columns `k, z` joined on one key, and
the join's output schema is `k, z, z`.  The right-parent non-join column
`z` should, per the claim, be located among the columns that come after
the left parent's two columns (position 2); the code searches from offset
`len(right_join_cols) = 1` and adopts position 1, which lies inside the
left parent's span. -/
theorem join_right_nonkey_offset_counterexample :
    handle_join ⟨false, "z", 0, false, some "R"⟩ ⟨"L", [⟨"k", 0⟩, ⟨"z", 1⟩]⟩
        ⟨"R", [⟨"k", 0⟩, ⟨"z", 1⟩]⟩ [⟨"k", 0⟩]
        [⟨"k", 0⟩, ⟨"z", 1⟩, ⟨"z", 2⟩] =
      .ok (.cont ⟨false, "z", 1, false, some "R"⟩) ∧
    ¬ ((⟨"L", [⟨"k", 0⟩, ⟨"z", 1⟩]⟩ : Rel).columns.length ≤ 1) :=
  ⟨rfl, by decide⟩

/-- C5 (amended): for an unrevealed right-parent descriptor whose name is
not a right join-key name, a successful rewrite adopts the position of the
first output column of that name at or after the offset
`len(right_join_cols)` — the count of right-side join keys, not the count
of left-parent columns — leaving every other descriptor field unchanged;
`_handle_join` then continues traversal at the join's child with that
descriptor. -/
theorem join_right_nonkey_search (column : Column) (right_cols : List Col)
    (right_join_cols : List Col) (out_cols : List Col) (c2 : Column)
    (hk : column.name ∉ right_join_cols.map Col.name)
    (hr : rewrite_column_for_right column right_cols right_join_cols out_cols
      = .ok c2) :
    c2 = { column with idx := c2.idx } ∧
    right_join_cols.length ≤ c2.idx ∧
    (∃ c, out_cols[c2.idx]? = some c ∧ c.name = column.name) ∧
    (∀ (j : Nat) (c : Col), right_join_cols.length ≤ j → j < c2.idx →
      out_cols[j]? = some c → c.name ≠ column.name) ∧
    (∀ (rel lrel rrel : Rel) (ljc : List Col) (child : Node),
      column.reveal = false →
      rel.columns = out_cols →
      rrel.columns = right_cols →
      column.current_rel_name ≠ some lrel.name →
      column.current_rel_name = some rrel.name →
      verify_column column
          (.mk rel (.join lrel rrel ljc right_join_cols) [child]) =
        verify_column { c2 with current_rel_name := some rel.name } child) := by
  have hc1 : (right_join_cols.map Col.name).contains column.name = false := by
    simp [hk]
  rw [rewrite_column_for_right] at hr
  simp only [hc1, Bool.false_eq_true, if_false] at hr
  have hmain : c2 = { column with idx := c2.idx } ∧
      right_join_cols.length ≤ c2.idx ∧
      (∃ c, out_cols[c2.idx]? = some c ∧ c.name = column.name) ∧
      (∀ (j : Nat) (c : Col), right_join_cols.length ≤ j → j < c2.idx →
        out_cols[j]? = some c → c.name ≠ column.name) := by
    split at hr
    · split at hr
      · next i hfind =>
        have hc2 : c2 = { column with idx := i } := by
          injection hr with h2
          exact h2.symm
        subst hc2
        rw [List.length_map] at hfind
        obtain ⟨hlo, hex, hmin⟩ :=
          find_name_from_spec out_cols column.name right_join_cols.length i
            hfind
        exact ⟨rfl, hlo, hex, hmin⟩
      · exact Except.noConfusion hr
    · exact Except.noConfusion hr
  refine ⟨hmain.1, hmain.2.1, hmain.2.2.1, hmain.2.2.2, ?_⟩
  intro rel lrel rrel ljc child hrev hrc hrrc hneq heq
  have hrw : rewrite_column_for_right column rrel.columns right_join_cols
      rel.columns = .ok c2 := by
    rw [hrc, hrrc]
    rw [rewrite_column_for_right]
    simp only [hc1, Bool.false_eq_true, if_false]
    exact hr
  have hne2 : rrel.name ≠ lrel.name := by
    intro hh
    exact hneq (heq.trans (by rw [hh]))
  simp [verify_column, verify_column_step, hrev, handle_join, hneq, heq,
    hne2, hrw, continue_children, Column.update_rel_name, Except.map]

/-- Witness for `join_right_nonkey_search`, at the counterexample's
input. -/
theorem join_right_nonkey_search_witness :
    ([(⟨"k", 0⟩ : Col)].length ≤ (1 : Nat)) ∧
    (∃ c, [(⟨"k", 0⟩ : Col), ⟨"z", 1⟩, ⟨"z", 2⟩][(1 : Nat)]? = some c ∧
      c.name = "z") ∧
    verify_column ⟨false, "z", 0, false, some "R"⟩
        (.mk ⟨"J", [⟨"k", 0⟩, ⟨"z", 1⟩, ⟨"z", 2⟩]⟩
          (.join ⟨"L", [⟨"k", 0⟩, ⟨"z", 1⟩]⟩ ⟨"R", [⟨"k", 0⟩, ⟨"z", 1⟩]⟩
            [⟨"k", 0⟩] [⟨"k", 0⟩]) [.mk ⟨"T", []⟩ .other []]) =
      verify_column ⟨false, "z", 1, false, some "J"⟩
        (.mk ⟨"T", []⟩ .other []) :=
  ⟨(join_right_nonkey_search ⟨false, "z", 0, false, some "R"⟩
      [⟨"k", 0⟩, ⟨"z", 1⟩] [⟨"k", 0⟩] [⟨"k", 0⟩, ⟨"z", 1⟩, ⟨"z", 2⟩]
      ⟨false, "z", 1, false, some "R"⟩ (by decide) rfl).2.1,
   (join_right_nonkey_search ⟨false, "z", 0, false, some "R"⟩
      [⟨"k", 0⟩, ⟨"z", 1⟩] [⟨"k", 0⟩] [⟨"k", 0⟩, ⟨"z", 1⟩, ⟨"z", 2⟩]
      ⟨false, "z", 1, false, some "R"⟩ (by decide) rfl).2.2.1,
   (join_right_nonkey_search ⟨false, "z", 0, false, some "R"⟩
      [⟨"k", 0⟩, ⟨"z", 1⟩] [⟨"k", 0⟩] [⟨"k", 0⟩, ⟨"z", 1⟩, ⟨"z", 2⟩]
      ⟨false, "z", 1, false, some "R"⟩ (by decide) rfl).2.2.2.2
     ⟨"J", [⟨"k", 0⟩, ⟨"z", 1⟩, ⟨"z", 2⟩]⟩ ⟨"L", [⟨"k", 0⟩, ⟨"z", 1⟩]⟩
     ⟨"R", [⟨"k", 0⟩, ⟨"z", 1⟩]⟩ [⟨"k", 0⟩] (.mk ⟨"T", []⟩ .other [])
     rfl rfl rfl (by decide) rfl⟩

/-- `deepcopyList` only appends fresh nodes: the input heap is a prefix of
the output heap, every returned id points into the fresh region, and the
fresh region is closed under child references. -/
theorem deepcopyList_spec :
    ∀ (fuel : Nat) (heap : List HNode) (ids : List NodeId)
      (heap2 : List HNode) (nids : List NodeId),
      deepcopyList fuel heap ids = some (heap2, nids) →
      (∃ ext, heap2 = heap ++ ext) ∧
      (∀ n ∈ nids, heap.length ≤ n) ∧
      regionClosed heap.length heap2 := by
  intro fuel
  induction fuel with
  | zero =>
    intro heap ids heap2 nids h
    simp [deepcopyList] at h
  | succ fuel ih =>
    intro heap ids heap2 nids h
    cases ids with
    | nil =>
      rw [deepcopyList] at h
      simp only [Option.some.injEq, Prod.mk.injEq] at h
      obtain ⟨h1, h2⟩ := h
      subst h1
      subst h2
      refine ⟨⟨[], by simp⟩, by simp, ?_⟩
      intro j nd hj hjn
      have hlt := (List.getElem?_eq_some.mp hj).1
      omega
    | cons id rest =>
      rw [deepcopyList] at h
      split at h
      next hnd => exact Option.noConfusion h
      next nd hnd =>
        split at h
        next hrec1 => exact Option.noConfusion h
        next heap1 kids hrec1 =>
          split at h
          next hrec2 => exact Option.noConfusion h
          next heap3 nids2 hrec2 =>
            simp only [Option.some.injEq, Prod.mk.injEq] at h
            obtain ⟨h1, h2⟩ := h
            subst h1
            subst h2
            obtain ⟨⟨ext1, hext1⟩, hkids, hreg1⟩ :=
              ih heap nd.children heap1 kids hrec1
            obtain ⟨⟨ext2, hext2⟩, hnids2, hreg2⟩ :=
              ih (heap1 ++ [{ nd with children := kids }]) rest heap3 nids2
                hrec2
            have hlen1 : heap.length ≤ heap1.length := by
              rw [hext1, List.length_append]; omega
            have hlen2 : heap1.length + 1 =
                (heap1 ++ [{ nd with children := kids }]).length := by
              simp
            refine ⟨⟨ext1 ++ [{ nd with children := kids }] ++ ext2, ?_⟩,
              ?_, ?_⟩
            · rw [hext2, hext1]
              simp
            · intro n hn
              rcases List.mem_cons.mp hn with rfl | hn2
              · exact hlen1
              · have := hnids2 n hn2
                rw [← hlen2] at this
                omega
            · intro j nd2 hj hjge c hc
              by_cases hcase : j < (heap1 ++ [{ nd with children := kids }]).length
              · have hj2 : (heap1 ++ [{ nd with children := kids }])[j]? =
                    some nd2 := by
                  rw [hext2] at hj
                  rw [List.getElem?_append] at hj
                  · rwa [if_pos hcase] at hj
                by_cases hcase2 : j < heap1.length
                · have hj3 : heap1[j]? = some nd2 := by
                    rw [List.getElem?_append] at hj2
                    rwa [if_pos hcase2] at hj2
                  exact hreg1 j nd2 hj3 hjge c hc
                · have hjeq : j = heap1.length := by
                    simp only [List.length_append, List.length_cons,
                      List.length_nil] at hcase
                    omega
                  subst hjeq
                  rw [List.getElem?_concat_length] at hj2
                  have hnd2 : nd2 = { nd with children := kids } := by
                    injection hj2 with hh
                    exact hh.symm
                  rw [hnd2] at hc
                  exact hkids c hc
              · have := hreg2 j nd2 hj (by omega) c hc
                rw [← hlen2] at this
                omega

/-- `verify_column_heap` started inside a child-closed region at or above
`n` preserves the heap's length and every entry strictly below `n`. -/
theorem verify_column_heap_frame :
    ∀ (fuel : Nat) (column : Column) (heap : List HNode) (id : NodeId)
      (res : Except VError Column) (heap2 : List HNode) (n : Nat),
      n ≤ id → regionClosed n heap →
      verify_column_heap fuel column heap id = some (res, heap2) →
      heap2.length = heap.length ∧ ∀ i, i < n → heap2[i]? = heap[i]? := by
  intro fuel
  induction fuel with
  | zero =>
    intro column heap id res heap2 n hn hreg h
    simp [verify_column_heap] at h
  | succ fuel ih =>
    intro column heap id res heap2 n hn hreg h
    rw [verify_column_heap] at h
    split at h
    next hnd =>
      simp only [Option.some.injEq, Prod.mk.injEq] at h
      rw [← h.2]
      exact ⟨rfl, fun i _ => rfl⟩
    next nd hnd =>
      split at h
      next e hstep =>
        simp only [Option.some.injEq, Prod.mk.injEq] at h
        rw [← h.2]
        exact ⟨rfl, fun i _ => rfl⟩
      next c hstep =>
        simp only [Option.some.injEq, Prod.mk.injEq] at h
        rw [← h.2]
        exact ⟨rfl, fun i _ => rfl⟩
      next c hstep =>
        split at h
        next child hch =>
          have hchild : n ≤ child :=
            hreg id nd hnd hn child (by rw [hch]; simp)
          have hreg2 : regionClosed n
              (heap.set id { nd with children := [] }) := by
            intro j nd2 hj hjge c2 hc2
            by_cases hji : id = j
            · subst hji
              have hidlt := (List.getElem?_eq_some.mp hnd).1
              rw [List.getElem?_set_self hidlt] at hj
              have hx : nd2 = { nd with children := [] } := by
                injection hj with hh
                exact hh.symm
              rw [hx] at hc2
              simp at hc2
            · rw [List.getElem?_set_ne hji] at hj
              exact hreg j nd2 hj hjge c2 hc2
          obtain ⟨hl, hf⟩ := ih _ _ _ res heap2 n hchild hreg2 h
          refine ⟨by rw [hl, List.length_set], ?_⟩
          intro i hi
          rw [hf i hi, List.getElem?_set_ne (by omega)]
        next hch =>
          simp only [Option.some.injEq, Prod.mk.injEq] at h
          rw [← h.2]
          exact ⟨rfl, fun i _ => rfl⟩
        next hch1 hch2 =>
          simp only [Option.some.injEq, Prod.mk.injEq] at h
          rw [← h.2]
          exact ⟨rfl, fun i _ => rfl⟩

/-- The per-column loop of `_verify` never changes a heap entry that
existed before it ran: each column's deep copy appends fresh cells and its
traversal only writes into them. -/
theorem run_columns_heap_frame :
    ∀ (cols : List Column) (fuel : Nat) (heap : List HNode)
      (root_id : NodeId) (res : Except VError (List Column))
      (heap2 : List HNode),
      run_columns_heap fuel heap root_id cols = some (res, heap2) →
      heap.length ≤ heap2.length ∧
      ∀ i, i < heap.length → heap2[i]? = heap[i]? := by
  intro cols
  induction cols with
  | nil =>
    intro fuel heap root_id res heap2 h
    rw [run_columns_heap] at h
    simp only [Option.some.injEq, Prod.mk.injEq] at h
    rw [← h.2]
    exact ⟨le_refl _, fun i _ => rfl⟩
  | cons column rest ih =>
    intro fuel heap root_id res heap2 h
    rw [run_columns_heap] at h
    split at h
    next hdc => exact Option.noConfusion h
    next heap1 copy_id hdc =>
      rw [deepcopy1] at hdc
      obtain ⟨⟨ext, hext⟩, hcid, hreg⟩ :
          (∃ ext, heap1 = heap ++ ext) ∧ heap.length ≤ copy_id ∧
            regionClosed heap.length heap1 := by
        split at hdc
        next heapA nid tail hdl =>
          simp only [Option.some.injEq, Prod.mk.injEq] at hdc
          obtain ⟨hA, hB⟩ := hdc
          rw [hA, hB] at hdl
          obtain ⟨he, hn, hr⟩ :=
            deepcopyList_spec fuel heap [root_id] heap1 (copy_id :: tail) hdl
          exact ⟨he, hn copy_id (by simp), hr⟩
        next hni hdl => exact Option.noConfusion hdc
      have hlen1 : heap.length ≤ heap1.length := by
        rw [hext, List.length_append]; omega
      split at h
      next hvc => exact Option.noConfusion h
      next e heap2b hvc =>
        obtain ⟨hlb, hfb⟩ :=
          verify_column_heap_frame fuel column heap1 copy_id (.error e)
            heap2b heap.length hcid hreg hvc
        simp only [Option.some.injEq, Prod.mk.injEq] at h
        rw [← h.2]
        refine ⟨by omega, ?_⟩
        intro i hi
        rw [hfb i hi, hext, List.getElem?_append]
        rw [if_pos hi]
      next c heap2b hvc =>
        obtain ⟨hlb, hfb⟩ :=
          verify_column_heap_frame fuel column heap1 copy_id (.ok c)
            heap2b heap.length hcid hreg hvc
        have hframe1 : ∀ i, i < heap.length → heap2b[i]? = heap[i]? := by
          intro i hi
          rw [hfb i hi, hext, List.getElem?_append]
          rw [if_pos hi]
        split at h
        next hrun => exact Option.noConfusion h
        next e2 heap3 hrun =>
          obtain ⟨hl3, hf3⟩ := ih fuel heap2b root_id (.error e2) heap3 hrun
          simp only [Option.some.injEq, Prod.mk.injEq] at h
          rw [← h.2]
          refine ⟨by omega, ?_⟩
          intro i hi
          rw [hf3 i (by omega), hframe1 i hi]
        next v heap3 hrun =>
          obtain ⟨hl3, hf3⟩ := ih fuel heap2b root_id (.ok v) heap3 hrun
          simp only [Option.some.injEq, Prod.mk.injEq] at h
          rw [← h.2]
          refine ⟨by omega, ?_⟩
          intro i hi
          rw [hf3 i (by omega), hframe1 i hi]

/-- C8: evaluating one policy with `_verify` leaves every pre-existing
heap cell — in particular every node of the caller's workflow DAG —
unchanged: each per-column traversal operates on a deep copy placed in
fresh cells, so the destructive child-popping step of
`_continue_traversal` never writes to a node that existed before the call,
and distinct columns get distinct fresh copies. -/
theorem verify_policy_heap_frame (fuel : Nat) (heap : List HNode)
    (roots : List NodeId) (p : Policy) (res : Except VError Bool)
    (heap2 : List HNode)
    (h : verify_policy_heap fuel heap roots p = some (res, heap2)) :
    ∀ i, i < heap.length → heap2[i]? = heap[i]? := by
  rw [verify_policy_heap] at h
  split at h
  next e hf =>
    simp only [Option.some.injEq, Prod.mk.injEq] at h
    rw [← h.2]
    exact fun i _ => rfl
  next root_id hf =>
    split at h
    next hnd =>
      simp only [Option.some.injEq, Prod.mk.injEq] at h
      rw [← h.2]
      exact fun i _ => rfl
    next root hnd =>
      split at h
      next e hs =>
        simp only [Option.some.injEq, Prod.mk.injEq] at h
        rw [← h.2]
        exact fun i _ => rfl
      next cols hs =>
        split at h
        next hrun => exact Option.noConfusion h
        next e heap2b hrun =>
          obtain ⟨hl, hf2⟩ :=
            run_columns_heap_frame cols fuel heap root_id (.error e) heap2b
              hrun
          simp only [Option.some.injEq, Prod.mk.injEq] at h
          rw [← h.2]
          exact hf2
        next v heap2b hrun =>
          obtain ⟨hl, hf2⟩ :=
            run_columns_heap_frame cols fuel heap root_id (.ok v) heap2b
              hrun
          simp only [Option.some.injEq, Prod.mk.injEq] at h
          rw [← h.2]
          exact hf2

/-- Witness for `verify_policy_heap_frame`: a one-node heap; the run
appends the node's deep copy and leaves cell 0 untouched. -/
theorem verify_policy_heap_frame_witness :
    verify_policy_heap 5 [⟨⟨"in1", [⟨"a", 0⟩]⟩, .other, []⟩] [0]
        ⟨"in1", [("a", true)]⟩ =
      some (.ok true, [⟨⟨"in1", [⟨"a", 0⟩]⟩, .other, []⟩,
        ⟨⟨"in1", [⟨"a", 0⟩]⟩, .other, []⟩]) ∧
    [(⟨⟨"in1", [⟨"a", 0⟩]⟩, .other, []⟩ : HNode),
      ⟨⟨"in1", [⟨"a", 0⟩]⟩, .other, []⟩][0]? =
      [(⟨⟨"in1", [⟨"a", 0⟩]⟩, .other, []⟩ : HNode)][0]? :=
  ⟨rfl, verify_policy_heap_frame 5 [⟨⟨"in1", [⟨"a", 0⟩]⟩, .other, []⟩] [0]
    ⟨"in1", [("a", true)]⟩ (.ok true)
    [⟨⟨"in1", [⟨"a", 0⟩]⟩, .other, []⟩, ⟨⟨"in1", [⟨"a", 0⟩]⟩, .other, []⟩]
    rfl 0 (by decide)⟩

end Dogma
